import Mathlib

/-!
Verification of the demo LLM decode engine
(`tensorrt_llm/_torch/auto_deploy/shim/demollm.py`).

The development shallowly embeds, over `Nat`/`Int`/`Rat` and Lean lists:
* the page-allocation heuristic `DemoEngine._assign_pages`;
* the per-step stop-word bookkeeping and early-break loop of
  `DemoEngine.generate_tokens_batched`;
* the sampling helpers `_logits_to_probs`, `_multinomial_sample_one_no_sync`
  and the `_sample` dispatch;
* the per-rank request batching of `DemoGenerationExecutor._run_engine`.

External collaborators that are not part of the repository unit under
verification (the `SequenceInfo` methods, the distributed all-reduce, the
`pyexecutor` sampling batch functions) are modelled from the specification and
marked as such in their doc comments.
-/

set_option maxRecDepth 4000

namespace DemoLLM

/-! ## Page allocator (`DemoEngine._assign_pages`) -/

/-- Number of extra pages a sequence needs, mirroring
`extra_tokens = t_l - len(pages) * page_size` and
`num_extra_pages = (extra_tokens // page_size) + (extra_tokens > 0)`.
Python `//` is floor division, so the value is an `Int` (it can be negative,
in which case the `range` of pops below is empty). -/
def numExtraPages (page_size : ℕ) (t_l : ℕ) (pages : List ℕ) : ℤ :=
  let extra : ℤ := (t_l : ℤ) - (pages.length : ℤ) * (page_size : ℤ)
  Int.fdiv extra (page_size : ℤ) + (if 0 < extra then 1 else 0)

/-- Pop `n` pages from the front of the free list; `none` models the
`KeyError` raised by `set.pop` on an exhausted free set. -/
def popPages : ℕ → List ℕ → Option (List ℕ × List ℕ)
  | 0, free => some ([], free)
  | _ + 1, [] => none
  | n + 1, f :: free =>
    match popPages n free with
    | none => none
    | some (ps, rest) => some (f :: ps, rest)

/-- The `for t_l, pages in zip(total_lens, page_assignments)` loop of
`_assign_pages`: each sequence receives `pages + [free_pages.pop() ...]`,
threading the free list through the batch in sequence order. -/
def assignLoop (page_size : ℕ) : List (ℕ × List ℕ) → List ℕ → Option (List (List ℕ))
  | [], _ => some []
  | (t_l, pages) :: rest, free =>
    match popPages (numExtraPages page_size t_l pages).toNat free with
    | none => none
    | some (newPages, free') =>
      match assignLoop page_size rest free' with
      | none => none
      | some tail => some ((pages ++ newPages) :: tail)

/-- `free_pages = set(range(si.num_pages)) - {i for pages in page_assignments
for i in pages}`, as the ordered list of unassigned page indices. -/
def freePages (num_pages : ℕ) (assignments : List (List ℕ)) : List ℕ :=
  (List.range num_pages).filter (fun i => !(assignments.any (fun pages => pages.contains i)))

/-- Embedding of `DemoEngine._assign_pages`: `total_lens` is the elementwise
sum of sequence lengths and input positions, and the updated assignments are
computed sequence by sequence from the shared free-page pool.  `none` models
the uncaught `KeyError` on pool exhaustion. -/
def assignPages (num_pages page_size : ℕ) (seq_lens input_pos : List ℕ)
    (assignments : List (List ℕ)) : Option (List (List ℕ)) :=
  let total_lens := List.zipWith (· + ·) seq_lens input_pos
  assignLoop page_size (total_lens.zip assignments) (freePages num_pages assignments)

/-- Two page lists are disjoint when no index belongs to both. -/
def pagesDisjoint (a b : List ℕ) : Prop := ∀ x, x ∈ a → x ∉ b

instance : DecidableRel pagesDisjoint := fun a _ => List.decidableBAll _ a

/-! ### Allocator lemmas -/

theorem popPages_eq : ∀ (n : ℕ) (free : List ℕ),
    popPages n free = if n ≤ free.length then some (free.take n, free.drop n) else none := by
  intro n
  induction n with
  | zero => intro free; simp [popPages]
  | succ n ih =>
    intro free
    cases free with
    | nil => simp [popPages]
    | cons f fs =>
      simp only [popPages, ih fs, List.length_cons]
      by_cases h : n ≤ fs.length
      · simp [h, Nat.succ_le_succ h]
      · have h2 : ¬ n + 1 ≤ fs.length + 1 := by omega
        simp [h, h2]

theorem assignLoop_length : ∀ (S : ℕ) (items : List (ℕ × List ℕ)) (free : List ℕ)
    (out : List (List ℕ)), assignLoop S items free = some out → out.length = items.length := by
  intro S items
  induction items with
  | nil =>
    intro free out h
    simp [assignLoop] at h
    simp [← h]
  | cons it rest ih =>
    intro free out h
    obtain ⟨t, p⟩ := it
    simp only [assignLoop] at h
    split at h
    · simp at h
    · next newPages free' hpop =>
      split at h
      · simp at h
      · next tail hrec =>
        simp at h
        simp [← h, ih free' tail hrec]

theorem assignLoop_get? : ∀ (S : ℕ) (items : List (ℕ × List ℕ)) (free : List ℕ)
    (out : List (List ℕ)), assignLoop S items free = some out →
    ∀ (b t : ℕ) (p : List ℕ), items.get? b = some (t, p) →
    ∃ ch, out.get? b = some (p ++ ch) ∧ ch.length = (numExtraPages S t p).toNat := by
  intro S items
  induction items with
  | nil => intro free out _ b t p hb; simp at hb
  | cons it rest ih =>
    intro free out h b t p hb
    obtain ⟨t0, p0⟩ := it
    simp only [assignLoop] at h
    split at h
    · simp at h
    · next newPages free' hpop =>
      split at h
      · simp at h
      · next tail hrec =>
        simp at h
        rw [popPages_eq] at hpop
        by_cases hle : (numExtraPages S t0 p0).toNat ≤ free.length
        · simp only [hle, if_pos, Option.some.injEq, Prod.mk.injEq] at hpop
          cases b with
          | zero =>
            rw [List.get?_cons_zero] at hb
            injection hb with hb2
            cases hb2
            refine ⟨newPages, ?_, ?_⟩
            · rw [← h, List.get?_cons_zero]
            · rw [← hpop.1, List.length_take]
              omega
          | succ b =>
            rw [List.get?_cons_succ] at hb
            obtain ⟨ch, hch1, hch2⟩ := ih free' tail hrec b t p hb
            exact ⟨ch, by rw [← h, List.get?_cons_succ]; exact hch1, hch2⟩
        · simp [hle] at hpop

theorem assignLoop_none_iff : ∀ (S : ℕ) (items : List (ℕ × List ℕ)) (free : List ℕ),
    assignLoop S items free = none ↔
      free.length < (items.map (fun it => (numExtraPages S it.1 it.2).toNat)).sum := by
  intro S items
  induction items with
  | nil => intro free; simp [assignLoop]
  | cons it rest ih =>
    intro free
    obtain ⟨t, p⟩ := it
    simp only [assignLoop, List.map_cons, List.sum_cons]
    split
    · next hpop =>
      rw [popPages_eq] at hpop
      by_cases hle : (numExtraPages S t p).toNat ≤ free.length
      · simp [hle] at hpop
      · simp only [true_iff]
        omega
    · next newPages free' hpop =>
      rw [popPages_eq] at hpop
      by_cases hle : (numExtraPages S t p).toNat ≤ free.length
      · simp only [hle, if_pos, Option.some.injEq, Prod.mk.injEq] at hpop
        have hlen : free'.length = free.length - (numExtraPages S t p).toNat := by
          rw [← hpop.2, List.length_drop]
        split
        · next hrec =>
          have := (ih free').mp hrec
          simp only [true_iff]
          omega
        · next tail hrec =>
          have hnot : ¬ free'.length <
              (rest.map (fun it => (numExtraPages S it.1 it.2).toNat)).sum := by
            intro hcon
            have := (ih free').mpr hcon
            rw [this] at hrec
            exact Option.noConfusion hrec
          constructor
          · intro hcon; exact absurd hcon (by simp)
          · intro hcon
            exfalso
            exact hnot (by omega)
      · simp [hle] at hpop

theorem assignLoop_mem : ∀ (S : ℕ) (items : List (ℕ × List ℕ)) (free : List ℕ)
    (out : List (List ℕ)), assignLoop S items free = some out →
    ∀ o ∈ out, ∀ x ∈ o, (∃ it ∈ items, x ∈ it.2) ∨ x ∈ free := by
  intro S items
  induction items with
  | nil =>
    intro free out h o ho
    simp only [assignLoop, Option.some.injEq] at h
    rw [← h] at ho
    simp at ho
  | cons it rest ih =>
    intro free out h o ho x hx
    obtain ⟨t0, p0⟩ := it
    simp only [assignLoop] at h
    split at h
    · simp at h
    · next newPages free' hpop =>
      split at h
      · simp at h
      · next tail hrec =>
        simp at h
        rw [popPages_eq] at hpop
        by_cases hle : (numExtraPages S t0 p0).toNat ≤ free.length
        · simp only [hle, if_pos, Option.some.injEq, Prod.mk.injEq] at hpop
          obtain ⟨hnew, hfree'⟩ := hpop
          rw [← h] at ho
          rcases List.mem_cons.mp ho with rfl | hotail
          · rcases List.mem_append.mp hx with hxp | hxnew
            · exact Or.inl ⟨(t0, p0), List.mem_cons_self _ _, hxp⟩
            · right
              rw [← hnew] at hxnew
              exact List.mem_of_mem_take hxnew
          · rcases ih free' tail hrec o hotail x hx with ⟨it, hit, hxit⟩ | hxfree
            · exact Or.inl ⟨it, List.mem_cons_of_mem _ hit, hxit⟩
            · right
              rw [← hfree'] at hxfree
              exact List.mem_of_mem_drop hxfree
        · simp [hle] at hpop

theorem assignLoop_pairwise : ∀ (S : ℕ) (items : List (ℕ × List ℕ)) (free : List ℕ)
    (out : List (List ℕ)),
    free.Nodup → (∀ it ∈ items, ∀ x ∈ free, x ∉ it.2) →
    (items.map Prod.snd).Pairwise pagesDisjoint →
    assignLoop S items free = some out → out.Pairwise pagesDisjoint := by
  intro S items
  induction items with
  | nil =>
    intro free out _ _ _ h
    simp only [assignLoop, Option.some.injEq] at h
    rw [← h]
    exact List.Pairwise.nil
  | cons it rest ih =>
    intro free out hnd hfr hpw h
    obtain ⟨t0, p0⟩ := it
    simp only [assignLoop] at h
    split at h
    · simp at h
    · next newPages free' hpop =>
      split at h
      · simp at h
      · next tail hrec =>
        simp at h
        rw [popPages_eq] at hpop
        by_cases hle : (numExtraPages S t0 p0).toNat ≤ free.length
        · simp only [hle, if_pos, Option.some.injEq, Prod.mk.injEq] at hpop
          obtain ⟨hnew, hfree'⟩ := hpop
          have happ : free = newPages ++ free' := by
            rw [← hnew, ← hfree', List.take_append_drop]
          have hfree'_sub : ∀ x ∈ free', x ∈ free := by
            intro x hx; rw [happ]; exact List.mem_append_right _ hx
          have hnew_sub : ∀ x ∈ newPages, x ∈ free := by
            intro x hx; rw [happ]; exact List.mem_append_left _ hx
          have hnd' : free'.Nodup := by
            rw [happ] at hnd; exact hnd.of_append_right
          have hdisj_new_free' : ∀ x ∈ newPages, x ∉ free' := by
            rw [happ] at hnd
            exact fun x hx => (List.disjoint_of_nodup_append hnd) hx
          rw [← h]
          rw [List.pairwise_cons]
          simp only [List.map_cons, List.pairwise_cons] at hpw
          constructor
          · -- head disjoint from every later assignment
            intro o hotail x hx hxo
            rcases assignLoop_mem S rest free' tail hrec o hotail x hxo with
              ⟨it, hit, hxit⟩ | hxfree'
            · rcases List.mem_append.mp hx with hxp | hxnew
              · exact hpw.1 it.2 (List.mem_map_of_mem Prod.snd hit) x hxp hxit
              · exact hfr it (List.mem_cons_of_mem _ hit) x (hnew_sub x hxnew) hxit
            · rcases List.mem_append.mp hx with hxp | hxnew
              · exact hfr (t0, p0) (List.mem_cons_self _ _) x (hfree'_sub x hxfree') hxp
              · exact hdisj_new_free' x hxnew hxfree'
          · exact ih free' tail hnd' (fun it hit x hx =>
              hfr it (List.mem_cons_of_mem _ hit) x (hfree'_sub x hx)) hpw.2 hrec
        · simp [hle] at hpop

theorem get?_zip_some {α β : Type} : ∀ (b : ℕ) (l1 : List α) (l2 : List β) (x : α) (y : β),
    l1.get? b = some x → l2.get? b = some y → (l1.zip l2).get? b = some (x, y) := by
  intro b
  induction b with
  | zero =>
    intro l1 l2 x y h1 h2
    cases l1 with
    | nil => simp at h1
    | cons a t1 =>
      cases l2 with
      | nil => simp at h2
      | cons c t2 => simp_all [List.zip_cons_cons]
  | succ b ih =>
    intro l1 l2 x y h1 h2
    cases l1 with
    | nil => simp at h1
    | cons a t1 =>
      cases l2 with
      | nil => simp at h2
      | cons c t2 =>
        simp only [List.zip_cons_cons, List.get?_cons_succ] at *
        exact ih t1 t2 x y h1 h2

theorem map_snd_zip_sublist {α β : Type} : ∀ (l1 : List α) (l2 : List β),
    List.Sublist ((l1.zip l2).map Prod.snd) l2 := by
  intro l1
  induction l1 with
  | nil => intro l2; simp
  | cons a t1 ih =>
    intro l2
    cases l2 with
    | nil => simp
    | cons c t2 =>
      simp only [List.zip_cons_cons, List.map_cons]
      exact List.Sublist.cons₂ c (ih t2)

theorem freePages_nodup (num_pages : ℕ) (assignments : List (List ℕ)) :
    (freePages num_pages assignments).Nodup :=
  (List.nodup_range num_pages).filter _

theorem freePages_not_assigned (num_pages : ℕ) (assignments : List (List ℕ)) :
    ∀ x ∈ freePages num_pages assignments, ∀ pages ∈ assignments, x ∉ pages := by
  intro x hx pages hpages
  simp only [freePages, List.mem_filter, Bool.not_eq_true', List.any_eq_false] at hx
  intro hxp
  have := hx.2 pages hpages
  simp [hxp] at this

theorem numExtraPages_count (S : ℕ) (hS : 0 < S) (t : ℕ) (p : List ℕ) :
    p.length + (numExtraPages S t p).toNat =
      if t ≤ p.length * S then p.length else t / S + 1 := by
  have hSz : (0 : ℤ) < (S : ℤ) := by exact_mod_cast hS
  by_cases hle : t ≤ p.length * S
  · have hc : (t : ℤ) - (p.length : ℤ) * (S : ℤ) ≤ 0 := by
      have : (t : ℤ) ≤ (p.length : ℤ) * (S : ℤ) := by exact_mod_cast hle
      omega
    have hnpos : ¬ (0 : ℤ) < (t : ℤ) - (p.length : ℤ) * (S : ℤ) := by omega
    simp only [numExtraPages, hnpos, if_neg, not_false_iff, if_pos hle, add_zero]
    have hfd : Int.fdiv ((t : ℤ) - (p.length : ℤ) * (S : ℤ)) (S : ℤ) ≤ 0 := by
      rw [Int.fdiv_eq_ediv _ (le_of_lt hSz)]
      calc ((t : ℤ) - (p.length : ℤ) * (S : ℤ)) / (S : ℤ)
          ≤ 0 / (S : ℤ) := Int.ediv_le_ediv hSz hc
        _ = 0 := Int.zero_ediv _
    rw [Int.toNat_of_nonpos hfd]
    omega
  · have hgt : p.length * S < t := by omega
    have hm : (t : ℤ) - (p.length : ℤ) * (S : ℤ) = ((t - p.length * S : ℕ) : ℤ) := by
      have : (p.length : ℤ) * (S : ℤ) = ((p.length * S : ℕ) : ℤ) := by push_cast; ring
      omega
    have hpos : (0 : ℤ) < (t : ℤ) - (p.length : ℤ) * (S : ℤ) := by
      rw [hm]
      exact_mod_cast Nat.sub_pos_of_lt hgt
    simp only [numExtraPages, hpos, if_pos, if_neg hle]
    have hv : Int.fdiv ((t : ℤ) - (p.length : ℤ) * (S : ℤ)) (S : ℤ)
        = (((t - p.length * S) / S : ℕ) : ℤ) := by
      rw [hm, Int.fdiv_eq_ediv _ (le_of_lt hSz)]
      exact (Int.ofNat_ediv _ _).symm
    rw [hv]
    have htn : ∀ q : ℕ, ((q : ℤ) + 1).toNat = q + 1 := fun q => by omega
    rw [htn]
    have hdiv : (t - S * p.length) / S = t / S - p.length :=
      Nat.sub_mul_div t S p.length (by rw [Nat.mul_comm]; exact le_of_lt hgt)
    have hge : p.length ≤ t / S := by
      rw [Nat.le_div_iff_mul_le hS]
      omega
    have hrw : t - p.length * S = t - S * p.length := by rw [Nat.mul_comm]
    rw [hrw, hdiv]
    omega

/-! ### Claim C1 -/

/-- Claim C1, counterexample: the claim predicts that a fresh sequence of 4
prompt tokens with page size 4 gets `max(0, ceil(4/4)) = 1` page, but
`_assign_pages` computes `num_extra_pages = (4 // 4) + (4 > 0) = 2` and
assigns 2 pages. -/
theorem assign_pages_ceil_counterexample :
    assignPages 4 4 [4] [0] [[]] = some [[0, 1]] ∧
    ([0, 1] : List ℕ).length ≠ max ([] : List ℕ).length ((4 + 4 - 1) / 4) := by
  constructor
  · rfl
  · decide

/-- Claim C1 (amended): after `_assign_pages`, a sequence with total length
`t` (sequence length plus input position) and previous assignment `p` has
`p.length` pages if `t ≤ p.length * page_size`, and `t / page_size + 1` pages
otherwise.  The latter equals `ceil(t / page_size)` except when `page_size`
divides `t`, where one extra page beyond the ceiling is allocated. -/
theorem assign_pages_count_amended (num_pages S : ℕ) (sl ip : List ℕ)
    (asg out : List (List ℕ)) (b t : ℕ) (p o : List ℕ) (hS : 0 < S)
    (h : assignPages num_pages S sl ip asg = some out)
    (ht : (List.zipWith (· + ·) sl ip).get? b = some t)
    (hp : asg.get? b = some p)
    (ho : out.get? b = some o) :
    o.length = if t ≤ p.length * S then p.length else t / S + 1 := by
  have hzip := get?_zip_some b _ _ _ _ ht hp
  obtain ⟨ch, hch1, hch2⟩ := assignLoop_get? S _ _ _ h b t p hzip
  rw [ho] at hch1
  have heq2 : o = p ++ ch := Option.some.inj hch1
  rw [heq2, List.length_append, hch2]
  exact numExtraPages_count S hS t p

/-- Claim C1, witness: the three snapshots of the spec scenario (page size 4;
5 prompt tokens give 2 pages, 8 total tokens keep 2 pages, 9 total tokens get
a 3rd page), each via `assign_pages_count_amended`. -/
theorem assign_pages_count_amended_witness :
    (([0, 1] : List ℕ).length =
      if 5 ≤ ([] : List ℕ).length * 4 then ([] : List ℕ).length else 5 / 4 + 1) ∧
    (([0, 1] : List ℕ).length =
      if 8 ≤ ([0, 1] : List ℕ).length * 4 then ([0, 1] : List ℕ).length else 8 / 4 + 1) ∧
    (([0, 1, 2] : List ℕ).length =
      if 9 ≤ ([0, 1] : List ℕ).length * 4 then ([0, 1] : List ℕ).length else 9 / 4 + 1) :=
  ⟨assign_pages_count_amended 16 4 [5] [0] [[]] [[0, 1]] 0 5 [] [0, 1]
      (by decide) (by decide) rfl rfl rfl,
    assign_pages_count_amended 16 4 [1] [7] [[0, 1]] [[0, 1]] 0 8 [0, 1] [0, 1]
      (by decide) (by decide) rfl rfl rfl,
    assign_pages_count_amended 16 4 [1] [8] [[0, 1]] [[0, 1, 2]] 0 9 [0, 1] [0, 1, 2]
      (by decide) (by decide) rfl rfl rfl⟩

/-! ### Claims C6, C7, C8 -/

/-- Claim C6: if the page assignments entering `_assign_pages` are pairwise
disjoint across sequences, they remain pairwise disjoint after the update —
newly popped pages come from the free pool (disjoint from every assignment)
and are popped without replacement. -/
theorem page_assignments_disjoint_preserved (num_pages S : ℕ) (sl ip : List ℕ)
    (asg out : List (List ℕ))
    (h : assignPages num_pages S sl ip asg = some out)
    (hdis : asg.Pairwise pagesDisjoint) :
    out.Pairwise pagesDisjoint := by
  refine assignLoop_pairwise S _ _ _ (freePages_nodup num_pages asg) ?_ ?_ h
  · intro it hit x hx
    exact freePages_not_assigned num_pages asg x hx it.2 (List.of_mem_zip hit).2
  · exact hdis.sublist (map_snd_zip_sublist _ _)

/-- Claim C6, witness. -/
theorem page_assignments_disjoint_preserved_witness :
    ([[0], [1]] : List (List ℕ)).Pairwise pagesDisjoint ∧
    ([[0, 2], [1]] : List (List ℕ)).Pairwise pagesDisjoint :=
  ⟨by decide,
    page_assignments_disjoint_preserved 4 2 [3, 1] [0, 1] [[0], [1]] [[0, 2], [1]]
      (by decide) (by decide)⟩

/-- Claim C7: within one `_assign_pages` call, each sequence's previous page
list is a prefix of (hence a subset of) its updated page list — pages are only
appended, never removed or replaced. -/
theorem page_assignment_monotone (num_pages S : ℕ) (sl ip : List ℕ)
    (asg out : List (List ℕ)) (b t : ℕ) (p o : List ℕ)
    (h : assignPages num_pages S sl ip asg = some out)
    (ht : (List.zipWith (· + ·) sl ip).get? b = some t)
    (hp : asg.get? b = some p)
    (ho : out.get? b = some o) :
    p <+: o ∧ ∀ x, x ∈ p → x ∈ o := by
  have hzip := get?_zip_some b _ _ _ _ ht hp
  obtain ⟨ch, hch1, _⟩ := assignLoop_get? S _ _ _ h b t p hzip
  rw [ho] at hch1
  have heq : o = p ++ ch := Option.some.inj hch1
  rw [heq]
  exact ⟨List.prefix_append p ch, fun x hx => List.mem_append_left ch hx⟩

/-- Claim C7, witness. -/
theorem page_assignment_monotone_witness :
    ([0] : List ℕ) <+: [0, 2] ∧ ∀ x, x ∈ ([0] : List ℕ) → x ∈ ([0, 2] : List ℕ) :=
  page_assignment_monotone 4 2 [3, 1] [0, 1] [[0], [1]] [[0, 2], [1]] 0 3 [0] [0, 2]
    (by decide) rfl rfl rfl

/-- Claim C8: `_assign_pages` fails (the `set.pop` raises) exactly when the
free-page pool holds fewer pages than the batch needs; there is no eviction or
backpressure path, so exhaustion mid-allocation is an unrecoverable error
rather than a silent truncation. -/
theorem free_pool_exhaustion_iff (num_pages S : ℕ) (sl ip : List ℕ)
    (asg : List (List ℕ)) :
    assignPages num_pages S sl ip asg = none ↔
      (freePages num_pages asg).length <
        (((List.zipWith (· + ·) sl ip).zip asg).map
          (fun it => (numExtraPages S it.1 it.2).toNat)).sum :=
  assignLoop_none_iff S _ _

/-! ## Decode loop bookkeeping (`generate_tokens_batched`, lines 100-164) -/

/-- The sampling configuration fields consumed by the decode loop and the
sampler (`SamplingParams` is parsed externally; only these fields are read). -/
structure SamplingParamsModel where
  max_tokens : ℕ
  stop_words : List (List ℤ)
  include_stop_in_output : Bool
  top_k : Option ℕ
  temperature : Option ℚ

/-- Python `lst[-n:]`: for `n > 0` the last `min n (length)` elements; for
`n = 0` the slice `lst[0:]`, i.e. the whole list. -/
def pyTail (l : List ℤ) (n : ℕ) : List ℤ :=
  if n = 0 then l else l.drop (l.length - n)

/-- Python `del lst[-n:]`: for `n > 0` removes the last `min n (length)`
elements; for `n = 0` it is `del lst[0:]`, clearing the whole list. -/
def pyDelTail (l : List ℤ) (n : ℕ) : List ℤ :=
  if n = 0 then [] else l.take (l.length - n)

/-- The `for stop_seq in stop_tokens` suffix check (lines 130-138): the first
stop sequence whose tokens match the buffer tail records the stop index, and
when stop strings are excluded the matched tokens are deleted and the stop
index moves back by their length. -/
def stopCheckOne (sp : SamplingParamsModel) (idx : ℕ) (buf : List ℤ) (istop : ℤ) :
    List ℤ × ℤ :=
  match sp.stop_words.find? (fun w => pyTail buf w.length == w) with
  | none => (buf, istop)
  | some w =>
    if sp.include_stop_in_output then (buf, (idx : ℤ))
    else (pyDelTail buf w.length, (idx : ℤ) - (w.length : ℤ))

/-- One sequence's bookkeeping during `_generate_single_step` (lines 122-138):
skip if already stopped (`idxs_stop[b] < idx`), otherwise append the new token
and run the stop check.  The state is `(output buffer, stop index)`. -/
def stepSeq (sp : SamplingParamsModel) (idx : ℕ) (tok : ℤ) (st : List ℤ × ℤ) :
    List ℤ × ℤ :=
  if st.2 < (idx : ℤ) then st
  else stopCheckOne sp idx (st.1 ++ [tok]) st.2

/-- The whole-batch bookkeeping of one step: `zip(new_tokens, token_ids)`. -/
def stepBatch (sp : SamplingParamsModel) (idx : ℕ) (toks : List ℤ)
    (states : List (List ℤ × ℤ)) : List (List ℤ × ℤ) :=
  List.zipWith (stepSeq sp idx) toks states

/-- Sampled tokens of step `idx` for a batch of `n` sequences; the sampler is
abstracted as an oracle `step → sequence → token`, covering every possible
sampler output. -/
def toksAt (oracle : ℕ → ℕ → ℤ) (idx n : ℕ) : List ℤ :=
  (List.range n).map (oracle idx)

/-- The generation loop (lines 150-153): run `_generate_single_step` for
`idx = i, i+1, ...` while fuel remains, breaking once
`all(i >= i_stop for i_stop in idxs_stop)`. -/
def loopFrom (sp : SamplingParamsModel) (oracle : ℕ → ℕ → ℤ) :
    ℕ → ℕ → List (List ℤ × ℤ) → List (List ℤ × ℤ)
  | _, 0, states => states
  | i, fuel + 1, states =>
    let states' := stepBatch sp i (toksAt oracle i states.length) states
    if states'.all (fun st => decide (st.2 ≤ (i : ℤ))) then states'
    else loopFrom sp oracle (i + 1) fuel states'

/-- Final per-sequence states of one `generate_tokens_batched` call with `n`
requests: buffers start empty and every stop index starts at
`max_tokens - 1`. -/
def generateStates (sp : SamplingParamsModel) (oracle : ℕ → ℕ → ℤ) (n : ℕ) :
    List (List ℤ × ℤ) :=
  loopFrom sp oracle 0 sp.max_tokens
    (List.replicate n ([], (sp.max_tokens : ℤ) - 1))

/-- Finish reason of a `CompletionOutput` (line 172). -/
inductive FinishReason where
  | stop
  | length
deriving DecidableEq, Repr

/-- The per-request `CompletionOutput` assembly (lines 167-174): token ids and
finish reason `stop` if fewer than `max_tokens` tokens were kept, else
`length`. -/
def decodeOutputs (sp : SamplingParamsModel) (states : List (List ℤ × ℤ)) :
    List (List ℤ × FinishReason) :=
  states.map (fun st =>
    (st.1, if st.1.length < sp.max_tokens then FinishReason.stop else FinishReason.length))

/-- The first `n` tokens the oracle emits for sequence `b`, one per step. -/
def toksUpTo (oracle : ℕ → ℕ → ℤ) (b n : ℕ) : List ℤ :=
  (List.range n).map (fun j => oracle j b)

/-! ### Decode loop lemmas -/

theorem mem_zipWith {α β γ : Type} (f : α → β → γ) :
    ∀ (l1 : List α) (l2 : List β) (c : γ), c ∈ List.zipWith f l1 l2 →
      ∃ a b, a ∈ l1 ∧ b ∈ l2 ∧ c = f a b := by
  intro l1
  induction l1 with
  | nil => intro l2 c h; simp at h
  | cons x t1 ih =>
    intro l2 c h
    cases l2 with
    | nil => simp at h
    | cons y t2 =>
      simp only [List.zipWith_cons_cons, List.mem_cons] at h
      rcases h with rfl | h
      · exact ⟨x, y, List.mem_cons_self _ _, List.mem_cons_self _ _, rfl⟩
      · obtain ⟨a, b, ha, hb, rfl⟩ := ih t2 c h
        exact ⟨a, b, List.mem_cons_of_mem _ ha, List.mem_cons_of_mem _ hb, rfl⟩

theorem stop_match_eq (sp : SamplingParamsModel) (buf : List ℤ) (w : List ℤ)
    (h : sp.stop_words.find? (fun w' => pyTail buf w'.length == w') = some w) :
    pyTail buf w.length = w := by
  have hp := List.find?_some h
  simp only [beq_iff_eq] at hp
  exact hp

theorem stop_match_ne_nil (buf w : List ℤ) (hw : pyTail buf w.length = w)
    (hbuf : buf ≠ []) : w ≠ [] := by
  intro hnil
  subst hnil
  simp only [List.length_nil, pyTail, if_pos] at hw
  exact hbuf hw

theorem stop_match_len_le (buf w : List ℤ) (hw : pyTail buf w.length = w)
    (hne : w ≠ []) : w.length ≤ buf.length := by
  by_contra hgt
  push_neg at hgt
  have hn0 : w.length ≠ 0 := fun h0 => hne (List.length_eq_zero.mp h0)
  rw [pyTail, if_neg hn0] at hw
  have hz : buf.length - w.length = 0 := by omega
  rw [hz, List.drop_zero] at hw
  rw [hw] at hgt
  omega

theorem stepSeq_inv (sp : SamplingParamsModel) (i : ℕ) (tok : ℤ) (st : List ℤ × ℤ)
    (h1 : -1 ≤ st.2) (h3 : (st.1.length : ℤ) = min ((i : ℤ) - 1) st.2 + 1) :
    -1 ≤ (stepSeq sp i tok st).2 ∧ (stepSeq sp i tok st).2 ≤ max st.2 (i : ℤ) ∧
    ((stepSeq sp i tok st).1.length : ℤ) = min (i : ℤ) (stepSeq sp i tok st).2 + 1 := by
  unfold stepSeq
  by_cases hskip : st.2 < (i : ℤ)
  · rw [if_pos hskip]
    exact ⟨h1, le_max_left _ _, by omega⟩
  · rw [if_neg hskip]
    push_neg at hskip
    have hlen : ((st.1 ++ [tok]).length : ℤ) = (i : ℤ) + 1 := by
      rw [List.length_append, List.length_singleton]
      push_cast
      omega
    cases hfind : sp.stop_words.find? (fun w => pyTail (st.1 ++ [tok]) w.length == w) with
    | none =>
      have hres : stopCheckOne sp i (st.1 ++ [tok]) st.2 = (st.1 ++ [tok], st.2) := by
        unfold stopCheckOne
        rw [hfind]
      rw [hres]
      refine ⟨h1, le_max_left _ _, ?_⟩
      show ((st.1 ++ [tok]).length : ℤ) = min (i : ℤ) st.2 + 1
      omega
    | some w =>
      have hw := stop_match_eq sp _ w hfind
      have hbufne : st.1 ++ [tok] ≠ [] := by simp
      have hwne : w ≠ [] := stop_match_ne_nil _ _ hw hbufne
      have hwpos : 1 ≤ w.length := List.length_pos.mpr hwne
      have hwle : w.length ≤ (st.1 ++ [tok]).length := stop_match_len_le _ _ hw hwne
      have hwlez : (w.length : ℤ) ≤ (i : ℤ) + 1 := by
        have : ((w.length : ℕ) : ℤ) ≤ ((st.1 ++ [tok]).length : ℤ) := by exact_mod_cast hwle
        omega
      by_cases hincl : sp.include_stop_in_output
      · have hres : stopCheckOne sp i (st.1 ++ [tok]) st.2 = (st.1 ++ [tok], (i : ℤ)) := by
          unfold stopCheckOne
          rw [hfind]
          show (if sp.include_stop_in_output then (st.1 ++ [tok], (i : ℤ))
              else (pyDelTail (st.1 ++ [tok]) w.length, (i : ℤ) - (w.length : ℤ))) =
            (st.1 ++ [tok], (i : ℤ))
          rw [if_pos hincl]
        rw [hres]
        refine ⟨by omega, le_max_right _ _, ?_⟩
        show ((st.1 ++ [tok]).length : ℤ) = min (i : ℤ) (i : ℤ) + 1
        omega
      · have hincl' : sp.include_stop_in_output = false := by
          simpa using hincl
        have hres : stopCheckOne sp i (st.1 ++ [tok]) st.2 =
            ((st.1 ++ [tok]).take ((st.1 ++ [tok]).length - w.length),
              (i : ℤ) - (w.length : ℤ)) := by
          unfold stopCheckOne
          rw [hfind]
          show (if sp.include_stop_in_output then (st.1 ++ [tok], (i : ℤ))
              else (pyDelTail (st.1 ++ [tok]) w.length, (i : ℤ) - (w.length : ℤ))) = _
          rw [if_neg (by simp [hincl'])]
          rw [pyDelTail, if_neg (by omega)]
        rw [hres]
        refine ⟨?_, ?_, ?_⟩
        · show -1 ≤ (i : ℤ) - (w.length : ℤ)
          omega
        · show (i : ℤ) - (w.length : ℤ) ≤ max st.2 (i : ℤ)
          have h' : (i : ℤ) - (w.length : ℤ) ≤ (i : ℤ) := by omega
          exact le_trans h' (le_max_right _ _)
        · show (((st.1 ++ [tok]).take ((st.1 ++ [tok]).length - w.length)).length : ℤ) =
            min (i : ℤ) ((i : ℤ) - (w.length : ℤ)) + 1
          rw [List.length_take]
          have hsub : (st.1 ++ [tok]).length - w.length ≤ (st.1 ++ [tok]).length :=
            Nat.sub_le _ _
          omega

theorem loopFrom_len_inv (sp : SamplingParamsModel) (oracle : ℕ → ℕ → ℤ) :
    ∀ (fuel i : ℕ) (states : List (List ℤ × ℤ)),
    (∀ st ∈ states, -1 ≤ st.2 ∧ st.2 ≤ (i : ℤ) + fuel - 1 ∧
      (st.1.length : ℤ) = min ((i : ℤ) - 1) st.2 + 1) →
    ∀ st ∈ loopFrom sp oracle i fuel states, (st.1.length : ℤ) = st.2 + 1 := by
  intro fuel
  induction fuel with
  | zero =>
    intro i states hpre st hst
    simp only [loopFrom] at hst
    obtain ⟨h1, h2, h3⟩ := hpre st hst
    omega
  | succ fuel ih =>
    intro i states hpre st hst
    simp only [loopFrom] at hst
    have hinv' : ∀ st' ∈ stepBatch sp i (toksAt oracle i states.length) states,
        -1 ≤ st'.2 ∧ st'.2 ≤ (i : ℤ) + fuel ∧
        (st'.1.length : ℤ) = min (i : ℤ) st'.2 + 1 := by
      intro st' hst'
      obtain ⟨tok, s0, _, hs0, rfl⟩ := mem_zipWith _ _ _ _ hst'
      obtain ⟨h1, h2, h3⟩ := hpre s0 hs0
      obtain ⟨g1, g2, g3⟩ := stepSeq_inv sp i tok s0 h1 h3
      refine ⟨g1, ?_, g3⟩
      have h2' : s0.2 ≤ (i : ℤ) + (fuel : ℤ) := by
        have hcast : ((fuel + 1 : ℕ) : ℤ) = (fuel : ℤ) + 1 := by push_cast; ring
        omega
      omega
    split at hst
    · next hall =>
      obtain ⟨_, _, h3⟩ := hinv' st hst
      have hle : st.2 ≤ (i : ℤ) :=
        of_decide_eq_true (List.all_eq_true.mp hall st hst)
      omega
    · next _ =>
      apply ih (i + 1) _ _ st hst
      intro st' hst'
      obtain ⟨h1, h2, h3⟩ := hinv' st' hst'
      refine ⟨h1, ?_, ?_⟩
      · push_cast
        omega
      · push_cast
        omega

/-! ### Claim C4 -/

/-- Claim C4: for any sampler outputs and any configured stop sequences, after
`generate_tokens_batched`'s loop every sequence's output length equals its
recorded stop index plus one — the post-loop `assert` can never fire. -/
theorem output_length_matches_stop_index (sp : SamplingParamsModel)
    (oracle : ℕ → ℕ → ℤ) (n : ℕ) :
    (generateStates sp oracle n).all
      (fun st => decide ((st.1.length : ℤ) = st.2 + 1)) = true := by
  rw [List.all_eq_true]
  intro st hst
  apply decide_eq_true
  apply loopFrom_len_inv sp oracle sp.max_tokens 0 _ _ st hst
  intro st' hst'
  have heq : st' = ([], (sp.max_tokens : ℤ) - 1) := List.eq_of_mem_replicate hst'
  subst heq
  refine ⟨by omega, by omega, ?_⟩
  simp only [List.length_nil, Nat.cast_zero]
  omega

/-! ### Claim C2 -/

/-- Claim C2: for a not-yet-stopped sequence, after appending the new token
the configured stop sequences are checked as suffix matches; on the first
match `w` with stop strings excluded, the matched tokens are removed (the
remaining buffer `pre` satisfies `pre ++ w = buffer`) and the stop index
becomes the current step minus `w.length`.  The concluding conjuncts check
the spec scenario: stop words `[[7,8]]`, generated tokens `[1,2,7,8]`,
`include_stop_str_in_output = False` give final output `[1,2]` with finish
reason `stop`. -/
theorem stop_sequence_suffix_removal (sp : SamplingParamsModel) (idx : ℕ)
    (tok : ℤ) (buf : List ℤ) (istop : ℤ) (w : List ℤ)
    (hact : (idx : ℤ) ≤ istop)
    (hincl : sp.include_stop_in_output = false)
    (hfind : sp.stop_words.find? (fun w' => pyTail (buf ++ [tok]) w'.length == w') = some w) :
    w ≠ [] ∧ w <:+ (buf ++ [tok]) ∧
    (∃ pre, stepSeq sp idx tok (buf, istop) = (pre, (idx : ℤ) - (w.length : ℤ)) ∧
      pre ++ w = buf ++ [tok]) ∧
    generateStates ⟨10, [[7, 8]], false, none, none⟩
      (fun i _ => [1, 2, 7, 8].getD i 0) 1 = [([1, 2], 1)] ∧
    decodeOutputs ⟨10, [[7, 8]], false, none, none⟩
      (generateStates ⟨10, [[7, 8]], false, none, none⟩
        (fun i _ => [1, 2, 7, 8].getD i 0) 1) = [([1, 2], FinishReason.stop)] := by
  have hw := stop_match_eq sp _ w hfind
  have hbufne : buf ++ [tok] ≠ [] := by simp
  have hwne : w ≠ [] := stop_match_ne_nil _ _ hw hbufne
  have hn0 : w.length ≠ 0 := fun h0 => hwne (List.length_eq_zero.mp h0)
  have hwle : w.length ≤ (buf ++ [tok]).length := stop_match_len_le _ _ hw hwne
  have hsuf : w <:+ (buf ++ [tok]) := by
    rw [← hw, pyTail, if_neg hn0]
    exact List.drop_suffix _ _
  refine ⟨hwne, hsuf, ?_, by decide, by decide⟩
  refine ⟨(buf ++ [tok]).take ((buf ++ [tok]).length - w.length), ?_, ?_⟩
  · rw [stepSeq, if_neg (by simp only []; omega)]
    unfold stopCheckOne
    rw [hfind]
    show (if sp.include_stop_in_output then (buf ++ [tok], (idx : ℤ))
        else (pyDelTail (buf ++ [tok]) w.length, (idx : ℤ) - (w.length : ℤ))) = _
    rw [if_neg (by simp [hincl])]
    rw [pyDelTail, if_neg hn0]
  · obtain ⟨pre0, hpre0⟩ := hsuf
    have hlen0 : (buf ++ [tok]).length - w.length = pre0.length := by
      rw [← hpre0, List.length_append]
      omega
    rw [hlen0, ← hpre0, List.take_left]

/-! ### Claim C9 -/

theorem get?_some_lt {α : Type} : ∀ (l : List α) (b : ℕ) (x : α),
    l.get? b = some x → b < l.length := by
  intro l
  induction l with
  | nil => intro b x h; simp at h
  | cons a t ih =>
    intro b x h
    cases b with
    | zero => simp only [List.length_cons]; omega
    | succ b =>
      rw [List.get?_cons_succ] at h
      have := ih b x h
      simp only [List.length_cons]
      omega

theorem get?_zipWith {α β γ : Type} (f : α → β → γ) :
    ∀ (b : ℕ) (l1 : List α) (l2 : List β) (x : α) (y : β),
    l1.get? b = some x → l2.get? b = some y →
    (List.zipWith f l1 l2).get? b = some (f x y) := by
  intro b
  induction b with
  | zero =>
    intro l1 l2 x y h1 h2
    cases l1 with
    | nil => simp at h1
    | cons a t1 =>
      cases l2 with
      | nil => simp at h2
      | cons c t2 => simp_all [List.zipWith_cons_cons]
  | succ b ih =>
    intro l1 l2 x y h1 h2
    cases l1 with
    | nil => simp at h1
    | cons a t1 =>
      cases l2 with
      | nil => simp at h2
      | cons c t2 =>
        simp only [List.zipWith_cons_cons, List.get?_cons_succ] at *
        exact ih t1 t2 x y h1 h2

theorem toksAt_get? (oracle : ℕ → ℕ → ℤ) (i n b : ℕ) (h : b < n) :
    (toksAt oracle i n).get? b = some (oracle i b) := by
  unfold toksAt
  rw [List.get?_map, List.get?_range h]
  rfl

theorem replicate_get? {α : Type} (n b : ℕ) (a : α) (h : b < n) :
    (List.replicate n a).get? b = some a := by
  simp [List.get?_eq_getElem?, List.getElem?_replicate, h]

theorem toksUpTo_succ (oracle : ℕ → ℕ → ℤ) (b n : ℕ) :
    toksUpTo oracle b (n + 1) = toksUpTo oracle b n ++ [oracle n b] := by
  unfold toksUpTo
  rw [List.range_succ, List.map_append]
  rfl

theorem toksUpTo_length (oracle : ℕ → ℕ → ℤ) (b n : ℕ) :
    (toksUpTo oracle b n).length = n := by
  unfold toksUpTo
  rw [List.length_map, List.length_range]

theorem loopFrom_no_match (sp : SamplingParamsModel) (oracle : ℕ → ℕ → ℤ) (b : ℕ) :
    ∀ (fuel i : ℕ) (states : List (List ℤ × ℤ)),
    i + fuel = sp.max_tokens →
    states.get? b = some (toksUpTo oracle b i, (sp.max_tokens : ℤ) - 1) →
    (∀ j, i ≤ j → j < sp.max_tokens →
      sp.stop_words.find? (fun w => pyTail (toksUpTo oracle b (j + 1)) w.length == w) = none) →
    (loopFrom sp oracle i fuel states).get? b =
      some (toksUpTo oracle b sp.max_tokens, (sp.max_tokens : ℤ) - 1) := by
  intro fuel
  induction fuel with
  | zero =>
    intro i states hif hb _
    simp only [loopFrom]
    have hieq : i = sp.max_tokens := by omega
    rw [hieq] at hb
    exact hb
  | succ fuel ih =>
    intro i states hif hb hnm
    simp only [loopFrom]
    have hblt : b < states.length := get?_some_lt _ _ _ hb
    have htok : (toksAt oracle i states.length).get? b = some (oracle i b) :=
      toksAt_get? oracle i states.length b hblt
    have hstep : (stepBatch sp i (toksAt oracle i states.length) states).get? b =
        some (stepSeq sp i (oracle i b) (toksUpTo oracle b i, (sp.max_tokens : ℤ) - 1)) :=
      get?_zipWith _ b _ _ _ _ htok hb
    have hilt : i < sp.max_tokens := by omega
    have hact : ¬ ((sp.max_tokens : ℤ) - 1 < (i : ℤ)) := by
      have : (i : ℤ) < (sp.max_tokens : ℤ) := by exact_mod_cast hilt
      omega
    have hfind := hnm i (le_refl i) hilt
    have hsval : stepSeq sp i (oracle i b) (toksUpTo oracle b i, (sp.max_tokens : ℤ) - 1) =
        (toksUpTo oracle b (i + 1), (sp.max_tokens : ℤ) - 1) := by
      unfold stepSeq
      rw [if_neg hact]
      have happ : (toksUpTo oracle b i, (sp.max_tokens : ℤ) - 1).1 ++ [oracle i b] =
          toksUpTo oracle b (i + 1) := (toksUpTo_succ oracle b i).symm
      rw [happ]
      unfold stopCheckOne
      rw [hfind]
    rw [hsval] at hstep
    by_cases hall : ((stepBatch sp i (toksAt oracle i states.length) states).all
        (fun st => decide (st.2 ≤ (i : ℤ)))) = true
    · rw [if_pos hall]
      have hmem := List.get?_mem hstep
      have hle : (sp.max_tokens : ℤ) - 1 ≤ (i : ℤ) :=
        of_decide_eq_true (List.all_eq_true.mp hall _ hmem)
      have hieq : i + 1 = sp.max_tokens := by
        have : (i : ℤ) < (sp.max_tokens : ℤ) := by exact_mod_cast hilt
        omega
      rw [hieq] at hstep
      exact hstep
    · rw [if_neg hall]
      exact ih (i + 1) _ (by omega) hstep (fun j hj1 hj2 => hnm j (by omega) hj2)

/-- Claim C9: a sequence whose sampled tokens never produce a stop-sequence
suffix match runs for exactly `max_tokens` steps and keeps all `max_tokens`
tokens with finish reason `length`; and in general a sequence's finish reason
is `stop` exactly when its kept output is shorter than `max_tokens`. -/
theorem never_stop_runs_to_length (sp : SamplingParamsModel) (oracle : ℕ → ℕ → ℤ)
    (n b : ℕ) (hb : b < n)
    (hnm : ∀ j, j < sp.max_tokens →
      sp.stop_words.find? (fun w => pyTail (toksUpTo oracle b (j + 1)) w.length == w) = none) :
    (generateStates sp oracle n).get? b =
      some (toksUpTo oracle b sp.max_tokens, (sp.max_tokens : ℤ) - 1) ∧
    (decodeOutputs sp (generateStates sp oracle n)).get? b =
      some (toksUpTo oracle b sp.max_tokens, FinishReason.length) ∧
    (toksUpTo oracle b sp.max_tokens).length = sp.max_tokens ∧
    (∀ (states : List (List ℤ × ℤ)) (b' : ℕ) (toks : List ℤ) (r : FinishReason),
      (decodeOutputs sp states).get? b' = some (toks, r) →
      (r = FinishReason.stop ↔ toks.length < sp.max_tokens)) := by
  have hmain : (generateStates sp oracle n).get? b =
      some (toksUpTo oracle b sp.max_tokens, (sp.max_tokens : ℤ) - 1) := by
    apply loopFrom_no_match sp oracle b sp.max_tokens 0 _ (by omega) _
      (fun j _ hj2 => hnm j hj2)
    exact replicate_get? n b _ hb
  refine ⟨hmain, ?_, toksUpTo_length oracle b sp.max_tokens, ?_⟩
  · unfold decodeOutputs
    rw [List.get?_map, hmain]
    simp only [Option.map_some']
    rw [toksUpTo_length oracle b sp.max_tokens]
    rw [if_neg (lt_irrefl sp.max_tokens)]
  · intro states b' toks r h
    unfold decodeOutputs at h
    rw [List.get?_map] at h
    cases hst : states.get? b' with
    | none => rw [hst] at h; simp at h
    | some st =>
      rw [hst] at h
      simp only [Option.map_some', Option.some.injEq, Prod.mk.injEq] at h
      obtain ⟨htoks, hr⟩ := h
      subst htoks
      by_cases hlt : st.1.length < sp.max_tokens
      · rw [if_pos hlt] at hr
        subst hr
        simp [hlt]
      · rw [if_neg hlt] at hr
        subst hr
        constructor
        · intro hcon
          exact absurd hcon (by intro hh; cases hh)
        · intro hcon
          exact absurd hcon hlt

/-- Claim C9, witness: with `max_tokens = 2`, stop words `[[5]]` and an oracle
that always emits `0`, no suffix ever matches, so the sequence keeps both
tokens and finishes with reason `length`. -/
theorem never_stop_runs_to_length_witness :
    (generateStates ⟨2, [[5]], false, none, none⟩ (fun _ _ => 0) 1).get? 0 =
      some (toksUpTo (fun _ _ => 0) 0 2, ((2 : ℕ) : ℤ) - 1) ∧
    (decodeOutputs ⟨2, [[5]], false, none, none⟩
        (generateStates ⟨2, [[5]], false, none, none⟩ (fun _ _ => 0) 1)).get? 0 =
      some (toksUpTo (fun _ _ => 0) 0 2, FinishReason.length) ∧
    (toksUpTo (fun _ _ => 0) 0 2).length = 2 ∧
    (∀ (states : List (List ℤ × ℤ)) (b' : ℕ) (toks : List ℤ) (r : FinishReason),
      (decodeOutputs ⟨2, [[5]], false, none, none⟩ states).get? b' = some (toks, r) →
      (r = FinishReason.stop ↔ toks.length < 2)) :=
  never_stop_runs_to_length ⟨2, [[5]], false, none, none⟩ (fun _ _ => 0) 1 0 (by decide)
    (by intro j hj; interval_cases j <;> decide)

/-- Claim C2, witness: the scenario's matching step — at step 3 with buffer
`[1,2,7]` and token `8`, the stop sequence `[7,8]` is a suffix, the buffer is
truncated to `[1,2]` and the stop index becomes `3 - 2 = 1`. -/
theorem stop_sequence_suffix_removal_witness :
    ([7, 8] : List ℤ) ≠ [] ∧ ([7, 8] : List ℤ) <:+ ([1, 2, 7] ++ [8]) ∧
    (∃ pre, stepSeq ⟨10, [[7, 8]], false, none, none⟩ 3 8 ([1, 2, 7], 9) =
        (pre, (3 : ℤ) - ((2 : ℕ) : ℤ)) ∧ pre ++ [7, 8] = [1, 2, 7] ++ [8]) ∧
    generateStates ⟨10, [[7, 8]], false, none, none⟩
      (fun i _ => [1, 2, 7, 8].getD i 0) 1 = [([1, 2], 1)] ∧
    decodeOutputs ⟨10, [[7, 8]], false, none, none⟩
      (generateStates ⟨10, [[7, 8]], false, none, none⟩
        (fun i _ => [1, 2, 7, 8].getD i 0) 1) = [([1, 2], FinishReason.stop)] :=
  stop_sequence_suffix_removal ⟨10, [[7, 8]], false, none, none⟩ 3 8 [1, 2, 7] 9 [7, 8]
    (by decide) rfl (by decide)

/-! ## Token sampler (`_logits_to_probs`, `_multinomial_sample_one_no_sync`,
`_sample`)

Logits are embedded as lists of rationals; the floating-point `exp` inside
softmax is abstracted as a weight function `expFn` (with `exp(-inf) = 0`
represented by masking entries to `none`), and the random exponential noise is
an explicit per-class noise vector. -/

/-- Insert into a descending-sorted list, keeping it sorted. -/
def insertDesc (a : ℚ) : List ℚ → List ℚ
  | [] => [a]
  | b :: t => if b ≤ a then a :: b :: t else b :: insertDesc a t

/-- Descending sort, used to model `torch.topk`'s value ordering. -/
def sortDesc (l : List ℚ) : List ℚ := l.foldr insertDesc []

/-- `v, _ = torch.topk(logits, min(top_k, logits.size(-1))); pivot =
v.select(-1, -1)`: the smallest of the top `min k (length)` values. -/
def pivotTopK (k : ℕ) (l : List ℚ) : ℚ :=
  (sortDesc l).getD (min k l.length - 1) 0

/-- Softmax over masked logits: a `none` entry stands for `-inf` and gets
weight `exp(-inf) = 0`; the remaining weights are normalized by their sum. -/
def softmaxMasked (expFn : ℚ → ℚ) (l : List (Option ℚ)) : List ℚ :=
  let ws := l.map (fun o => match o with | none => 0 | some x => expFn x)
  ws.map (fun x => x / ws.sum)

/-- Embedding of `DemoEngine._logits_to_probs` (lines 188-199): scale the
logits by `1 / max(temperature, 1e-5)` (temperature defaults to `1.0`), then
if `top_k` is set, mask every entry strictly below the top-k pivot to `-inf`,
and apply softmax. -/
def logits_to_probs (expFn : ℚ → ℚ) (temperature : Option ℚ) (top_k : Option ℕ)
    (logits : List ℚ) : List ℚ :=
  let scaled := logits.map (fun x => x / max (temperature.getD 1) (1 / 100000))
  match top_k with
  | none => softmaxMasked expFn (scaled.map some)
  | some k =>
    let pivot := pivotTopK k scaled
    softmaxMasked expFn (scaled.map (fun x => if x < pivot then none else some x))

/-- First index of the maximum (torch.argmax over the last dimension). -/
def argmaxAux : List ℚ → ℕ → ℕ × ℚ → ℕ
  | [], _, best => best.1
  | x :: t, i, best =>
    if best.2 < x then argmaxAux t (i + 1) (i, x) else argmaxAux t (i + 1) best

/-- Index of the (first) largest entry of a row. -/
def argmaxIdx : List ℚ → ℕ
  | [] => 0
  | x :: t => argmaxAux t 1 (0, x)

/-- Embedding of `DemoEngine._multinomial_sample_one_no_sync` (lines 182-186):
with exponential noise `q` drawn i.i.d. per class, return
`argmax(probs / q)`. -/
def multinomial_sample_one_no_sync (probs q : List ℚ) : ℕ :=
  argmaxIdx (List.zipWith (fun p nz => p / nz) probs q)

/-- Modelled from the spec: `top_k_sampling_batch` is imported from
`...pyexecutor.sampler`, which is not under `src/`.  Per the spec's sampler
contract it scales each row by `1 / max(temperature, epsilon)`, sets entries
outside the top-k by value to `-inf`, applies softmax, and samples one index
per row by the exponential-noise argmax trick; it returns the sampled indices
and the probability rows. -/
def top_k_sampling_batch (expFn : ℚ → ℚ) (q : List (List ℚ))
    (temperature : Option ℚ) (logits : List (List ℚ)) (k : ℕ) :
    List ℕ × List (List ℚ) :=
  let probs := logits.map (fun row =>
    let scaled := row.map (fun x => x / max (temperature.getD 1) (1 / 100000))
    let pivot := pivotTopK k scaled
    softmaxMasked expFn (scaled.map (fun x => if x < pivot then none else some x)))
  (List.zipWith (fun row noise => argmaxIdx (List.zipWith (fun p nz => p / nz) row noise))
    probs q, probs)

/-- Modelled from the spec: `greedy_search_sampling_batch` is imported from
`...pyexecutor.sampler`, which is not under `src/`.  Per the spec it performs
deterministic greedy selection — `argmax` of the raw logits with no
temperature scaling — and returns the indices together with the rows it
selected from. -/
def greedy_search_sampling_batch (logits : List (List ℚ)) :
    List ℕ × List (List ℚ) :=
  (logits.map argmaxIdx, logits)

/-- Embedding of `DemoEngine._sample` (lines 201-212): dispatch on whether
`sampling_params.top_k` is an integer; top-k sampling receives the spec's
temperature (the probabilistic branch), greedy ignores it. -/
def sampleTokens (expFn : ℚ → ℚ) (q : List (List ℚ)) (sp : SamplingParamsModel)
    (logits : List (List ℚ)) : List ℕ :=
  match sp.top_k with
  | some k => (top_k_sampling_batch expFn q sp.temperature logits k).1
  | none => (greedy_search_sampling_batch logits).1

/-! ### Claim C3 -/

/-- Claim C3: when `top_k` is an integer, the sampler draws, for every row,
`argmax(probs / noise)` where `probs` is exactly
`_logits_to_probs(logits, temperature, top_k)` — logits scaled by
`1 / max(temperature, 1e-5)`, entries outside the top-k masked to `-inf`,
then softmax — i.e. the categorical sample via exponential-noise argmax; when
`top_k` is not set the sampler is the deterministic argmax of the raw logits,
with no temperature scaling. -/
theorem sampler_top_k_and_greedy (expFn : ℚ → ℚ) (q logits : List (List ℚ))
    (sp : SamplingParamsModel) :
    (∀ k, sp.top_k = some k →
      sampleTokens expFn q sp logits =
        List.zipWith (fun row noise => multinomial_sample_one_no_sync row noise)
          (logits.map (logits_to_probs expFn sp.temperature (some k))) q) ∧
    (sp.top_k = none → sampleTokens expFn q sp logits = logits.map argmaxIdx) := by
  constructor
  · intro k hk
    unfold sampleTokens
    rw [hk]
    rfl
  · intro hk
    unfold sampleTokens
    rw [hk]
    rfl

/-- Claim C3, witness: a concrete two-row batch evaluated through both
branches. -/
theorem sampler_top_k_and_greedy_witness :
    (sampleTokens id [[1, 2], [3, 4]] ⟨4, [], false, some 1, none⟩ [[5, 7], [8, 6]] =
      List.zipWith (fun row noise => multinomial_sample_one_no_sync row noise)
        ([[5, 7], [8, 6]].map (logits_to_probs id none (some 1)))
        [[1, 2], [3, 4]]) ∧
    (sampleTokens id [[1, 2], [3, 4]] ⟨4, [], false, none, none⟩ [[5, 7], [8, 6]] =
      [[5, 7], [8, 6]].map argmaxIdx) :=
  ⟨(sampler_top_k_and_greedy id [[1, 2], [3, 4]] [[5, 7], [8, 6]]
      ⟨4, [], false, some 1, none⟩).1 1 rfl,
    (sampler_top_k_and_greedy id [[1, 2], [3, 4]] [[5, 7], [8, 6]]
      ⟨4, [], false, none, none⟩).2 rfl⟩

/-! ## Batch synchronizer (`DemoGenerationExecutor._run_engine`, lines 261-285)

Queues are modelled by their observable contents: the number of requests a
rank can drain without blocking, and the list of requests that later become
available to its catch-up reads. -/

/-- The non-blocking drain loop
`while len(request_list) < max_batch_size: request_list.append(get(block=False))`
starting from `acc` already-collected requests, with `queued` requests
available before the queue reports `Empty`.  Returns the collected count. -/
def drainLoop (mbs : ℕ) : ℕ → ℕ → ℕ
  | acc, 0 => acc
  | acc, queued + 1 => if acc < mbs then drainLoop mbs (acc + 1) queued else acc

/-- Requests collected by one rank in one round: one initial blocking read
plus the non-blocking drain. -/
def drainCount (mbs queued : ℕ) : ℕ := drainLoop mbs 1 queued

/-- The catch-up loop
`while len(request_list) < num_max_requests: append(get(timeout=1.0))`:
`avail` lists the requests that arrive before the timeout; an exhausted
`avail` while still short models the fatal `Empty` timeout.  On success
returns the final request count and the number of blocking reads performed. -/
def catchUpLoop (m : ℕ) : ℕ → List ℕ → Option (ℕ × ℕ)
  | c, [] => if c < m then none else some (c, 0)
  | c, _ :: rest =>
    if c < m then
      match catchUpLoop m (c + 1) rest with
      | none => none
      | some (f, r) => some (f, r + 1)
    else some (c, 0)

/-- Modelled from the spec: `dist_ad.all_reduce(·, op=MAX)` (the distributed
module is not under `src/`) — the collective max-reduction of the per-rank
scalars. -/
def allReduceMax (counts : List ℕ) : ℕ := counts.foldr max 0

/-! ### Claim C5 lemmas -/

theorem drainLoop_le (mbs : ℕ) : ∀ (queued acc : ℕ), acc ≤ mbs →
    drainLoop mbs acc queued ≤ mbs := by
  intro queued
  induction queued with
  | zero => intro acc h; exact h
  | succ queued ih =>
    intro acc h
    unfold drainLoop
    by_cases hlt : acc < mbs
    · rw [if_pos hlt]
      exact ih (acc + 1) (by omega)
    · rw [if_neg hlt]
      exact h

theorem mem_le_allReduceMax : ∀ (l : List ℕ) (a : ℕ), a ∈ l → a ≤ allReduceMax l := by
  intro l
  induction l with
  | nil => intro a h; cases h
  | cons x t ih =>
    intro a h
    rcases List.mem_cons.mp h with rfl | h2
    · exact le_max_left _ _
    · exact le_trans (ih a h2) (le_max_right _ _)

theorem catchUpLoop_success (m : ℕ) : ∀ (avail : List ℕ) (c : ℕ), c ≤ m →
    m - c ≤ avail.length → catchUpLoop m c avail = some (m, m - c) := by
  intro avail
  induction avail with
  | nil =>
    intro c hc hav
    simp only [List.length_nil] at hav
    have : c = m := by omega
    unfold catchUpLoop
    rw [if_neg (by omega)]
    rw [this]
    have hz : m - m = 0 := by omega
    rw [hz]
  | cons x rest ih =>
    intro c hc hav
    unfold catchUpLoop
    by_cases hlt : c < m
    · rw [if_pos hlt]
      have := ih (c + 1) (by omega) (by simp only [List.length_cons] at hav; omega)
      rw [this]
      have : m - c = (m - (c + 1)) + 1 := by omega
      rw [this]
    · rw [if_neg hlt]
      have : c = m := by omega
      rw [this]
      have hz : m - m = 0 := by omega
      rw [hz]

theorem catchUpLoop_timeout (m : ℕ) : ∀ (avail : List ℕ) (c : ℕ),
    avail.length < m - c → catchUpLoop m c avail = none := by
  intro avail
  induction avail with
  | nil =>
    intro c hav
    simp only [List.length_nil] at hav
    unfold catchUpLoop
    rw [if_pos (by omega)]
  | cons x rest ih =>
    intro c hav
    simp only [List.length_cons] at hav
    unfold catchUpLoop
    rw [if_pos (by omega)]
    rw [ih (c + 1) (by omega)]

/-! ### Claim C5 -/

/-- Claim C5: in one round of `_run_engine`, a rank that collected `c`
requests (one blocking read plus the non-blocking drain, never exceeding
`max_batch_size`) and agreed on the collective maximum `m ≥ c` performs
exactly `m - c` further blocking reads and then runs the engine on exactly
`m` requests; if fewer than `m - c` requests ever arrive, the timeout is a
fatal failure (`none`), with no recovery path. -/
theorem batch_sync_catch_up (mbs : ℕ) (queues : List ℕ) (avail : List ℕ)
    (r c m : ℕ)
    (hmbs : 1 ≤ mbs)
    (hc : (queues.map (drainCount mbs)).get? r = some c)
    (hm : m = allReduceMax (queues.map (drainCount mbs)))
    (hav : m - c ≤ avail.length) :
    c ≤ mbs ∧ c ≤ m ∧ catchUpLoop m c avail = some (m, m - c) ∧
    (∀ l : List ℕ, l.length < m - c → catchUpLoop m c l = none) := by
  have hcle : c ≤ mbs := by
    have hmem : c ∈ queues.map (drainCount mbs) := List.get?_mem hc
    obtain ⟨queued, _, hq⟩ := List.mem_map.mp hmem
    rw [← hq]
    exact drainLoop_le mbs queued 1 hmbs
  have hcm : c ≤ m := by
    rw [hm]
    exact mem_le_allReduceMax _ c (List.get?_mem hc)
  exact ⟨hcle, hcm, catchUpLoop_success m avail c hcm hav,
    fun l hl => catchUpLoop_timeout m l c hl⟩

/-- Claim C5, witness: the spec scenario — two ranks drain 3 and 2 requests
(`max_batch_size = 3`), the reduction agrees on 3, and the lagging rank
performs exactly one additional blocking read to process 3 requests. -/
theorem batch_sync_catch_up_witness :
    2 ≤ 3 ∧ 2 ≤ 3 ∧ catchUpLoop 3 2 [99] = some (3, 3 - 2) ∧
    (∀ l : List ℕ, l.length < 3 - 2 → catchUpLoop 3 2 l = none) := by
  have h := batch_sync_catch_up 3 [5, 1] [99] 1 2 3 (by decide) (by decide) (by decide)
    (by decide)
  exact ⟨h.1, h.2.1, h.2.2.1, h.2.2.2⟩

/-! ## Engine-level pipeline (`generate_tokens_batched`, lines 81-180)

The `SequenceInfo` object and its methods live outside `src/`
(`ad_executor` / the sequence interface); they are modelled from the spec's
data model (§3) and decode-loop contract (§4.2). -/

/-- Modelled from the spec: the `SequenceInfo` state tracker — per-sequence
lengths, input positions and page assignments, plus the pool-wide constants
`num_pages`, `page_size`, `max_batch_size`. -/
structure SequenceInfo where
  num_pages : ℕ
  page_size : ℕ
  max_batch_size : ℕ
  sequence_lengths : List ℕ
  input_positions : List ℕ
  page_assignments : List (List ℕ)

/-- Modelled from the spec: `SequenceInfo.reset` clears all sequence lists. -/
def SequenceInfo.reset (si : SequenceInfo) : SequenceInfo :=
  { si with sequence_lengths := [], input_positions := [], page_assignments := [] }

/-- Modelled from the spec: `SequenceInfo.nest_sequences` repopulates the
tracker with one entry per sequence — each sequence's length is its token
count; positions and page lists are kept when the batch shape is unchanged
and start at zero / empty otherwise (prefill: "input position 0"). -/
def SequenceInfo.nest_sequences (si : SequenceInfo) (tokens : List (List ℤ)) :
    SequenceInfo :=
  { si with
    sequence_lengths := tokens.map List.length,
    input_positions :=
      if si.input_positions.length = tokens.length then si.input_positions
      else List.replicate tokens.length 0,
    page_assignments :=
      if si.page_assignments.length = tokens.length then si.page_assignments
      else List.replicate tokens.length [] }

/-- Modelled from the spec: `SequenceInfo.update_pos` advances each input
position by the given per-sequence deltas ("input positions += previous
sequence lengths"). -/
def SequenceInfo.update_pos (si : SequenceInfo) (deltas : List ℕ) : SequenceInfo :=
  { si with input_positions := List.zipWith (· + ·) si.input_positions deltas }

/-- Modelled from the spec: `SequenceInfo.assign_cache_loc` installs the
updated page assignments. -/
def SequenceInfo.assign_cache_loc (si : SequenceInfo) (asg : List (List ℕ)) :
    SequenceInfo :=
  { si with page_assignments := asg }

/-- The observable collaborator calls of one decode step, in program order:
the page allocator, the forward pass (`_compute_logits`), and the sampler
(`_decode_tokens`). -/
inductive EngineEvent where
  | assignPagesCall
  | forwardPass
  | sampleCall
deriving DecidableEq, Repr

/-- The engine loop of `generate_tokens_batched`: each step assigns pages
(`none` on pool exhaustion aborts the call), invokes the forward pass and
sampler (recorded in the trace; their values come from the token oracle),
advances the sequence info (`update_pos` then `nest_sequences` with one new
token per sequence), updates the stop bookkeeping, and breaks once every
sequence has stopped. -/
def engineLoop (sp : SamplingParamsModel) (oracle : ℕ → ℕ → ℤ) :
    ℕ → ℕ → SequenceInfo → List (List ℤ × ℤ) → List EngineEvent →
    Option (SequenceInfo × List (List ℤ × ℤ) × List EngineEvent)
  | _, 0, si, states, trace => some (si, states, trace)
  | i, fuel + 1, si, states, trace =>
    match assignPages si.num_pages si.page_size si.sequence_lengths si.input_positions
        si.page_assignments with
    | none => none
    | some asg =>
      let si1 := si.assign_cache_loc asg
      let toks := toksAt oracle i states.length
      let si2 := (si1.update_pos si1.sequence_lengths).nest_sequences
        (toks.map (fun t => [t]))
      let states' := stepBatch sp i toks states
      let trace' := trace ++
        [EngineEvent.assignPagesCall, EngineEvent.forwardPass, EngineEvent.sampleCall]
      if states'.all (fun st => decide (st.2 ≤ (i : ℤ))) then some (si2, states', trace')
      else engineLoop sp oracle (i + 1) fuel si2 states' trace'

/-- Embedding of `generate_tokens_batched` (lines 81-180) at the level the
claims need: an empty request list returns `[]` immediately; otherwise the
sequence info is reset and re-nested with the prompts and the decode loop
runs, producing one `(token_ids, finish_reason)` output per request.  The
returned triple carries the final sequence info and the trace of collaborator
calls; `none` models an uncaught allocation failure. -/
def generate_tokens_batched (sp : SamplingParamsModel) (oracle : ℕ → ℕ → ℤ)
    (requests : List (List ℤ)) (si : SequenceInfo) :
    Option (List (List ℤ × FinishReason) × SequenceInfo × List EngineEvent) :=
  if requests.length = 0 then some ([], si, [])
  else
    let si0 := (si.reset).nest_sequences requests
    match engineLoop sp oracle 0 sp.max_tokens si0
        (List.replicate requests.length ([], (sp.max_tokens : ℤ) - 1)) [] with
    | none => none
    | some (si1, states, trace) => some (decodeOutputs sp states, si1, trace)

/-! ### Claim C10 -/

/-- Claim C10: calling `generate_tokens_batched` with an empty request list
returns the empty output list immediately, leaves the sequence-info state
untouched (no reset, no re-nesting), and never invokes the page allocator,
the forward pass, or the sampler (the call trace is empty). -/
theorem empty_requests_noop (sp : SamplingParamsModel) (oracle : ℕ → ℕ → ℤ)
    (si : SequenceInfo) :
    generate_tokens_batched sp oracle [] si = some ([], si, []) := rfl

end DemoLLM
